import Mathlib

/-!
Verification of the terminal output reconciliation and sanitization pipeline.

The development shallowly embeds the renderer's terminal pane logic:

* the echo-artifact sanitizer (three global regex replacements plus a
  pending buffer carrying an unterminated OSC sequence across chunks);
* the byte-capped per-session snapshot cache;
* the reconciler (history and live channels, the one-shot fallback timer,
  diff-based de-duplication after a fallback replay, early-exit detection);
* the global focus registry.

Strings are modelled as lists of characters.  The JavaScript regexes used by
the sanitizer are deterministic on their inputs (backtracking can never
rescue a failed maximal parse, because a digit run can only shrink onto a
digit, which the required following literal never matches), so each one is
embedded as a direct maximal-munch scanner.  Recursive scanners take an
explicit fuel argument equal to the length of the scanned list so that every
definition is structurally recursive and evaluates inside the kernel; each
recursive call shortens the list by at least one character, so this fuel is
always sufficient (fuel-irrelevance lemmas are proved below).
-/

/-- Membership test for the JavaScript regex class backslash-s, the set of
white-space characters recognised by ECMA-262. -/
def isJsSpace (c : Char) : Bool :=
  c == '\t' || c == '\n' || c == '\x0b' || c == '\x0c' || c == '\r' || c == ' ' ||
  c == '\u00A0' || c == '\u1680' ||
  ((decide ('\u2000' ≤ c)) && (decide (c ≤ '\u200A'))) ||
  c == '\u2028' || c == '\u2029' || c == '\u202F' || c == '\u205F' ||
  c == '\u3000' || c == '\uFEFF'

/-- Consumes the remainder of a semicolon-digits group sequence: digits of
the current group, and further groups of a semicolon followed by at least
one digit.  Stops at the first character that cannot extend the sequence. -/
def dropGroupsDigits : List Char → List Char
  | [] => []
  | c :: rest =>
    if c.isDigit then dropGroupsDigits rest
    else if c = ';' then
      match rest with
      | d :: rest2 => if d.isDigit then dropGroupsDigits rest2 else c :: rest
      | [] => c :: rest
    else c :: rest

/-- Consumes a maximal sequence of groups, each a semicolon followed by one
or more digits.  This is the semicolon-digits star in the
device-attributes and bare-fragment regexes. -/
def dropGroups (l : List Char) : List Char :=
  match l with
  | a :: c :: rest => if a = ';' ∧ c.isDigit = true then dropGroupsDigits rest else l
  | _ => l

/-- Attempts to match a complete Device Attributes response
(escape, open bracket, question mark, digits, semicolon-digit groups, the
letter c) at the head of the list; on success returns the remainder after
the match. -/
def matchDA (l : List Char) : Option (List Char) :=
  match l with
  | a :: b :: q :: c :: rest =>
    if a = '\x1b' ∧ b = '[' ∧ q = '?' ∧ c.isDigit = true then
      match dropGroups (List.dropWhile Char.isDigit rest) with
      | d :: rest2 => if d = 'c' then some rest2 else none
      | [] => none
    else none
  | _ => none

/-- Attempts to match the body of a bare echoed response fragment
(digits, semicolon-digit groups, then the letter c or R, followed by a
non-consuming end-of-string or white-space lookahead) at the head of the
list; on success returns the remainder after the final letter. -/
def matchBareBody (l : List Char) : Option (List Char) :=
  match l with
  | [] => none
  | c :: rest =>
    if c.isDigit = true then
      match dropGroups (List.dropWhile Char.isDigit rest) with
      | [] => none
      | d :: rest2 =>
        if d = 'c' ∨ d = 'R' then
          match rest2 with
          | [] => some []
          | e :: _ => if isJsSpace e = true then some rest2 else none
        else none
    else none

/-- Finds the first OSC terminator (a BEL character, or an escape followed
by a backslash) and returns the remainder after it.  This is the lazy body
of the complete-OSC regex. -/
def findOscEnd : List Char → Option (List Char)
  | [] => none
  | c :: rest =>
    if c = '\x07' then some rest
    else if c = '\x1b' ∧ rest.head? = some '\\' then some rest.tail
    else findOscEnd rest

/-- True when the list begins with the two-character OSC start, an escape
followed by a closing bracket. -/
def isOscStartAt (l : List Char) : Bool :=
  match l with
  | a :: b :: _ => a == '\x1b' && b == ']'
  | _ => false

/-- True when the list begins with an OSC terminator, matching the test
regex applied to the buffered tail: a BEL character, or an escape followed
by a backslash. -/
def isTermAt (l : List Char) : Bool :=
  match l with
  | c :: rest => c == '\x07' || (c == '\x1b' && rest.head? == some '\\')
  | [] => false

/-- True when some suffix of the list begins with an OSC terminator; this is
the regex test for a BEL or escape-backslash anywhere in the list. -/
def hasTerm : List Char → Bool
  | [] => false
  | c :: rest => isTermAt (c :: rest) || hasTerm rest

/-- True when some suffix of the list begins with the OSC start marker. -/
def hasOscStart : List Char → Bool
  | [] => false
  | c :: rest => isOscStartAt (c :: rest) || hasOscStart rest

/-- True when a complete Device Attributes response occurs at some position
of the list. -/
def hasDA : List Char → Bool
  | [] => false
  | c :: rest => (matchDA (c :: rest)).isSome || hasDA rest

/-- True when a bare fragment body occurs immediately after some white-space
or greater-than character of the list. -/
def hasBareAux : List Char → Bool
  | [] => false
  | c :: rest => ((isJsSpace c || c == '>') && (matchBareBody rest).isSome) || hasBareAux rest

/-- True when the anchored bare-fragment pattern matches somewhere in the
list: either at the very start, or right after a white-space or
greater-than character. -/
def hasBare (l : List Char) : Bool :=
  (matchBareBody l).isSome || hasBareAux l

/-- Fuelled scanner for the global replacement of Device Attributes
responses: at each position, if the pattern matches, the matched span is
removed and scanning resumes after it; otherwise one character is kept. -/
def stripDAF : Nat → List Char → List Char
  | _, [] => []
  | 0, l => l
  | fuel + 1, c :: rest =>
    match matchDA (c :: rest) with
    | some rest2 => stripDAF fuel rest2
    | none => c :: stripDAF fuel rest

/-- Global removal of Device Attributes responses, the first regex
replacement of the sanitizer. -/
def stripDA (l : List Char) : List Char :=
  stripDAF l.length l

/-- Fuelled scanner for the global replacement of bare echoed fragments at
positions preceded by a white-space or greater-than character.  The
preceding character is the capture group and is kept; the fragment is
removed and scanning resumes after it. -/
def stripBareAuxF : Nat → List Char → List Char
  | _, [] => []
  | 0, l => l
  | fuel + 1, c :: rest =>
    if isJsSpace c || c == '>' then
      match matchBareBody rest with
      | some rest2 => c :: stripBareAuxF fuel rest2
      | none => c :: stripBareAuxF fuel rest
    else c :: stripBareAuxF fuel rest

/-- Global removal of bare echoed fragments, the second regex replacement of
the sanitizer.  The start-of-string anchor alternative is tried first at
position zero; afterwards every match consumes a preceding white-space or
greater-than character which is kept as the capture group. -/
def stripBare (l : List Char) : List Char :=
  match matchBareBody l with
  | some rest2 => stripBareAuxF rest2.length rest2
  | none => stripBareAuxF l.length l

/-- Fuelled scanner for the global replacement of complete OSC sequences:
an OSC start whose body reaches a terminator is removed whole and scanning
resumes after the terminator; an OSC start with no terminator in the rest
of the list fails to match, so its first character is kept and scanning
advances by one. -/
def stripOSCF : Nat → List Char → List Char
  | _, [] => []
  | 0, l => l
  | fuel + 1, c :: rest =>
    if isOscStartAt (c :: rest) then
      match findOscEnd rest.tail with
      | some rest2 => stripOSCF fuel rest2
      | none => c :: stripOSCF fuel rest
    else c :: stripOSCF fuel rest

/-- Global removal of complete OSC sequences, the third regex replacement of
the sanitizer. -/
def stripOSC (l : List Char) : List Char :=
  stripOSCF l.length l

/-- Splits the list at the last occurrence of the OSC start marker: returns
the text before it and the tail from it, or none when the marker does not
occur.  This is the last-index-of scan of the sanitizer. -/
def splitLastOsc : List Char → Option (List Char × List Char)
  | [] => none
  | c :: rest =>
    match splitLastOsc rest with
    | some (pre, tail) => some (c :: pre, tail)
    | none => if isOscStartAt (c :: rest) then some ([], c :: rest) else none

/-- Result of one sanitizer call: the cleaned text handed to the caller and
the new pending buffer carried to the next call. -/
structure SanitizeResult where
  out : List Char
  pending : List Char
  deriving DecidableEq, Repr

/-- The echo-artifact sanitizer.  The pending buffer is prepended to the
chunk and cleared; Device Attributes responses, anchored bare fragments and
complete OSC sequences are removed in that order; finally, if the text ends
in an unterminated OSC sequence, that tail is moved back into the pending
buffer and trimmed off the returned text. -/
def sanitizeEchoArtifacts (pendingOsc chunk : List Char) : SanitizeResult :=
  let working0 := pendingOsc ++ chunk
  let working1 := stripDA working0
  let working2 := stripBare working1
  let working3 := stripOSC working2
  match splitLastOsc working3 with
  | some (pre, tail) =>
    if hasTerm tail then { out := working3, pending := [] }
    else { out := pre, pending := tail }
  | none => { out := working3, pending := [] }

/-- The per-session snapshot byte cap, 512 KiB. -/
def SNAPSHOT_LIMIT_BYTES : Nat := 512 * 1024

/-- Encoded byte size of a text fragment: zero for the empty text, and
otherwise the UTF-8 encoding length, as produced by the text encoder. -/
def encodeBytes (text : List Char) : Nat :=
  if text = [] then 0 else text.foldl (fun n c => n + c.utf8Size) 0

/-- One stored snapshot fragment: its text and its encoded byte size. -/
structure SnapshotChunk where
  text : List Char
  bytes : Nat
  deriving DecidableEq, Repr

/-- One session's snapshot entry: the ordered fragments and the running
byte total. -/
structure SnapshotEntry where
  chunks : List SnapshotChunk
  bytes : Nat
  deriving DecidableEq, Repr

/-- The process-wide snapshot store, keyed by session identifier. -/
def SnapMap : Type := String → Option SnapshotEntry

/-- The initially empty snapshot store. -/
def emptySnapshots : SnapMap := fun _ => none

/-- The eviction loop of the snapshot cache: while the running total
exceeds the cap and more than one fragment remains, the oldest fragment is
removed and its bytes subtracted. -/
def evict : List SnapshotChunk → Nat → List SnapshotChunk × Nat
  | c :: c2 :: rest, bytes =>
    if SNAPSHOT_LIMIT_BYTES < bytes then evict (c2 :: rest) (bytes - c.bytes)
    else (c :: c2 :: rest, bytes)
  | chunks, bytes => (chunks, bytes)

/-- Appends a sanitized fragment to a session's snapshot entry: a no-op on
empty text or zero encoded size, otherwise the new fragment is pushed, the
running total incremented, and the eviction loop run. -/
def appendSnapshotChunk (m : SnapMap) (id : String) (text : List Char) : SnapMap :=
  if text = [] then m
  else
    let entry := (m id).getD { chunks := [], bytes := 0 }
    let cb := encodeBytes text
    if cb = 0 then m
    else
      let res := evict (entry.chunks ++ [{ text := text, bytes := cb }]) (entry.bytes + cb)
      fun id2 => if id2 = id then some { chunks := res.1, bytes := res.2 } else m id2

/-- Reads a session's full cached text: the concatenation of its fragments
in arrival order, the single fragment directly when there is exactly one,
and the empty text when no entry exists. -/
def getSnapshotText (m : SnapMap) (id : String) : List Char :=
  match m id with
  | none => []
  | some entry =>
    if entry.chunks.length = 1 then
      match entry.chunks.head? with
      | some c0 => c0.text
      | none => []
    else (entry.chunks.map (fun c => c.text)).flatten

/-- Removes a session's snapshot entry entirely. -/
def clearSnapshot (m : SnapMap) (id : String) : SnapMap :=
  fun id2 => if id2 = id then none else m id2

/-- Applies a finite sequence of snapshot append calls to the empty store. -/
def applyOps (ops : List (String × List Char)) : SnapMap :=
  ops.foldl (fun m p => appendSnapshotChunk m p.1 p.2) emptySnapshots

/-- Per-session reconciler state: the sanitizer's pending buffer, the two
history-replay booleans, whether the fallback timer has been cleared (the
source clears it only in the teardown disposal list), the snapshot store,
and the ordered list of texts written to the terminal sink. -/
structure TermState where
  pendingOsc : List Char
  historyReceived : Bool
  historyReplayedViaFallback : Bool
  timerCleared : Bool
  snapshots : SnapMap
  writes : List (List Char)

/-- The reconciler state at mount: empty pending buffer, no history seen,
no fallback replay, timer scheduled, and nothing written. -/
def initialTermState (m : SnapMap) : TermState :=
  { pendingOsc := []
    historyReceived := false
    historyReplayedViaFallback := false
    timerCleared := false
    snapshots := m
    writes := [] }

/-- The shared incoming-chunk handler.  The chunk is sanitized first; an
empty result is dropped.  A history chunk arriving after the fallback
replay is diffed against the cached text: when the cache is non-empty and a
prefix of the sanitized text, only the non-empty suffix is written and
appended; otherwise the full sanitized text is written and appended. -/
def handleIncoming (id : String) (st : TermState) (data : List Char) (isHistory : Bool) :
    TermState :=
  let r := sanitizeEchoArtifacts st.pendingOsc data
  let st1 : TermState := { st with pendingOsc := r.pending }
  if r.out = [] then st1
  else if isHistory = true ∧ st1.historyReplayedViaFallback = true then
    let cached := getSnapshotText st1.snapshots id
    if cached ≠ [] ∧ cached.isPrefixOf r.out = true then
      let diff := r.out.drop cached.length
      if diff = [] then st1
      else { st1 with writes := st1.writes ++ [diff]
                      snapshots := appendSnapshotChunk st1.snapshots id diff }
    else { st1 with writes := st1.writes ++ [r.out]
                    snapshots := appendSnapshotChunk st1.snapshots id r.out }
  else { st1 with writes := st1.writes ++ [r.out]
                  snapshots := appendSnapshotChunk st1.snapshots id r.out }

/-- The body of the one-shot fallback timer: when no history chunk has been
seen and the cache holds text for this session, the cached text is written
to the sink and the session is flagged as replayed via fallback. -/
def fireFallback (id : String) (st : TermState) : TermState :=
  if st.historyReceived = true then st
  else
    let cached := getSnapshotText st.snapshots id
    if cached = [] then st
    else { st with historyReplayedViaFallback := true
                   writes := st.writes ++ [cached] }

/-- Events delivered to one reconciler session: a history chunk, a live
data chunk, or the firing of the fallback timer.  The real timer fires once
250 milliseconds after start; event order models relative timing. -/
inductive PtyEvent where
  | history : List Char → PtyEvent
  | live : List Char → PtyEvent
  | timerFire : PtyEvent

/-- One event-loop turn of the reconciler.  The history subscription first
records that history has been observed, then runs the shared handler; the
live subscription runs the handler directly; a cleared timer does nothing,
and an uncleared one runs the fallback body. -/
def stepEvent (id : String) (st : TermState) : PtyEvent → TermState
  | PtyEvent.history d => handleIncoming id { st with historyReceived := true } d true
  | PtyEvent.live d => handleIncoming id st d false
  | PtyEvent.timerFire => if st.timerCleared = true then st else fireFallback id st

/-- Runs a finite sequence of events through the reconciler. -/
def runEvents (id : String) (st : TermState) (evs : List PtyEvent) : TermState :=
  evs.foldl (stepEvent id) st

/-- Teardown of a session: without the keep-alive flag the snapshot entry is
cleared; the collected disposal list, which includes clearing the fallback
timer, always runs. -/
def teardownSession (keepAlive : Bool) (id : String) (st : TermState) : TermState :=
  let st2 := if keepAlive = true then st else { st with snapshots := clearSnapshot st.snapshots id }
  { st2 with timerCleared := true }

/-- The message reported when the PTY exits early, carrying the exit code
when one was delivered. -/
def ptyExitMessage (exitCode : Option Int) : String :=
  "PTY exited early (code " ++
    (match exitCode with
     | some n => toString n
     | none => "n/a") ++ ")"

/-- The PTY exit handler: when the elapsed time since session start is under
1500 milliseconds and a start-error callback was provided, the callback is
invoked with the early-exit message; otherwise nothing is reported.
Timestamps are integer milliseconds as produced by the wall clock. -/
def onPtyExitEarlyError (startTs now : Int) (hasStartErrorCb : Bool)
    (exitCode : Option Int) : Option String :=
  let elapsed := now - startTs
  if elapsed < 1500 ∧ hasStartErrorCb = true then some (ptyExitMessage exitCode) else none

/-- The focus registry: an insertion-ordered map from session identifiers to
focus handlers.  Handler identity (reference equality in the source) is
modelled by a decidable equality on the handler type. -/
abbrev FocusRegistry (H : Type) : Type := List (String × H)

/-- Map lookup in insertion order, the get operation of the registry. -/
def regGet {H : Type} (r : FocusRegistry H) (id : String) : Option H :=
  match r with
  | [] => none
  | (k, v) :: rest => if k = id then some v else regGet rest id

/-- Map update: an existing key keeps its position and gets the new value; a
new key is appended at the end, preserving insertion order. -/
def regSet {H : Type} (r : FocusRegistry H) (id : String) (h : H) : FocusRegistry H :=
  match r with
  | [] => [(id, h)]
  | (k, v) :: rest => if k = id then (k, h) :: rest else (k, v) :: regSet rest id h

/-- Map removal of the entry with the given key, when present. -/
def regDelete {H : Type} (r : FocusRegistry H) (id : String) : FocusRegistry H :=
  match r with
  | [] => []
  | (k, v) :: rest => if k = id then rest else (k, v) :: regDelete rest id

/-- Registers a focus handler for an identifier: a no-op on the empty
identifier, otherwise the handler for that identifier is overwritten. -/
def registerTerminalFocus {H : Type} (r : FocusRegistry H) (id : String) (h : H) :
    FocusRegistry H :=
  if id = "" then r else regSet r id h

/-- Unregisters a focus handler: a no-op on the empty identifier; with no
handler given the entry is removed unconditionally; with a handler given
the entry is removed only when it is the currently registered one. -/
def unregisterTerminalFocus {H : Type} [DecidableEq H] (r : FocusRegistry H) (id : String)
    (h : Option H) : FocusRegistry H :=
  if id = "" then r
  else
    match h with
    | none => regDelete r id
    | some hh => if regGet r id = some hh then regDelete r id else r

/-- Scans the registry in registration order.  For each entry the predicate
is evaluated inside the try block; a predicate exception skips the entry.
When the predicate holds, the handler is invoked: a successful invocation
stops the scan with a true result, and a handler exception also just skips
the entry.  Exceptions are modelled by the error case of the except values;
the second component collects the invoked entries in invocation order. -/
def focusTerminalMatching {H : Type} (beh : H → Except Unit Unit)
    (pred : String → H → Except Unit Bool) :
    FocusRegistry H → Bool × List (String × H)
  | [] => (false, [])
  | (id, h) :: rest =>
    match pred id h with
    | Except.ok true =>
      match beh h with
      | Except.ok _ => (true, [(id, h)])
      | Except.error _ =>
        let r := focusTerminalMatching beh pred rest
        (r.1, (id, h) :: r.2)
    | _ => focusTerminalMatching beh pred rest

/-- Keys of a registry are pairwise distinct; every registry reachable by
register and unregister calls satisfies this, since the underlying map
cannot hold a key twice. -/
def regNodupKeys {H : Type} (r : FocusRegistry H) : Prop :=
  (r.map Prod.fst).Nodup


/-- Invariant of the sanitizer's pending buffer: it is empty, or it starts
with the OSC start marker and contains neither a BEL character nor the
escape-backslash terminator pair. -/
def pendingInv (p : List Char) : Prop :=
  p = [] ∨
    (p.take 2 = ['\x1b', ']'] ∧ '\x07' ∉ p ∧ ∀ l1 l2, p ≠ l1 ++ '\x1b' :: '\\' :: l2)

/-- Behaviour of the incoming handler on a history chunk for a session
already replayed via fallback: the chunk is sanitized first; an empty
result changes nothing; when the non-empty cache is a prefix of the
sanitized text only the non-empty suffix is written and appended, an empty
suffix changing nothing; otherwise the full sanitized text is written and
appended. -/
def c1Spec (id : String) (st : TermState) (data : List Char) : Prop :=
  let r := sanitizeEchoArtifacts st.pendingOsc data
  let cached := getSnapshotText st.snapshots id
  let st2 := handleIncoming id st data true
  st2.pendingOsc = r.pending
  ∧ (r.out = [] → st2.writes = st.writes ∧ st2.snapshots = st.snapshots)
  ∧ (r.out ≠ [] → cached ≠ [] → cached.isPrefixOf r.out = true →
      (r.out.drop cached.length = [] → st2.writes = st.writes ∧ st2.snapshots = st.snapshots)
      ∧ (r.out.drop cached.length ≠ [] →
          st2.writes = st.writes ++ [r.out.drop cached.length]
          ∧ st2.snapshots = appendSnapshotChunk st.snapshots id (r.out.drop cached.length)))
  ∧ (r.out ≠ [] → (cached = [] ∨ cached.isPrefixOf r.out = false) →
      st2.writes = st.writes ++ [r.out]
      ∧ st2.snapshots = appendSnapshotChunk st.snapshots id r.out)

/-- A session that cached the live text ABC and then replayed it via the
fallback timer, used to instantiate the de-duplication behaviour. -/
def c1ExampleState : TermState :=
  runEvents "s" (initialTermState emptySnapshots)
    [PtyEvent.live ['A', 'B', 'C'], PtyEvent.timerFire]

/-- Effect of one append on a session's entry: the new fragment is stored
whole at the newest end, and eviction only drops some number of fragments
from the oldest end of the previous sequence. -/
def c2StepSpec (m : SnapMap) (id : String) (t : List Char) : Prop :=
  ∃ e, appendSnapshotChunk m id t id = some e ∧
    ∃ k, k ≤ ((m id).getD { chunks := [], bytes := 0 }).chunks.length ∧
      e.chunks = (((m id).getD { chunks := [], bytes := 0 }).chunks).drop k
        ++ [{ text := t, bytes := encodeBytes t }]

/-- A session that has just observed its first history chunk, before the
fallback timer has fired. -/
def c4ExampleState : TermState :=
  stepEvent "s" (initialTermState emptySnapshots) (PtyEvent.history ['h'])

/-- A sample focus-handler behaviour for numbered handlers: every
invocation succeeds. -/
def sampleBeh : Nat → Except Unit Unit := fun _ => Except.ok ()

/-- A sample focus predicate for numbered handlers: handler zero does not
satisfy it, every other handler does. -/
def samplePred : String → Nat → Except Unit Bool :=
  fun _ h => if h = 0 then Except.ok false else Except.ok true

/-- A sample chunk free of every artifact pattern. -/
def cleanSample : List Char := ['h', 'e', 'l', 'l', 'o', ' ', 's', 'h', 'e', 'l', 'l']

theorem length_dropWhile_isDigit_le (l : List Char) :
    (List.dropWhile Char.isDigit l).length ≤ l.length := by
  induction l with
  | nil => simp [List.dropWhile]
  | cons c rest ih => simp only [List.dropWhile]; split <;> simp <;> omega

theorem dropGroupsDigits_length_le (l : List Char) :
    (dropGroupsDigits l).length ≤ l.length := by
  induction l using dropGroupsDigits.induct with
  | case1 => simp [dropGroupsDigits]
  | case2 c rest h ih => rw [dropGroupsDigits.eq_def]; simp [h]; omega
  | case3 d rest2 hd hs ih => rw [dropGroupsDigits.eq_def]; simp [hd, hs]; omega
  | case4 d rest2 hd hs => rw [dropGroupsDigits.eq_def]; simp [hd, hs]
  | case5 hs => rw [dropGroupsDigits.eq_def]; simp [hs]
  | case6 c rest hd hc => rw [dropGroupsDigits.eq_def]; simp [hd, hc]

theorem dropGroups_length_le (l : List Char) : (dropGroups l).length ≤ l.length := by
  match l with
  | [] => simp [dropGroups]
  | [a] => simp [dropGroups]
  | a :: c :: rest =>
    simp only [dropGroups]
    split
    · have := dropGroupsDigits_length_le rest; simp; omega
    · simp

theorem matchDA_length {l r : List Char} (h : matchDA l = some r) : r.length < l.length := by
  match l with
  | [] => simp [matchDA] at h
  | [a] => simp [matchDA] at h
  | [a, b] => simp [matchDA] at h
  | [a, b, q] => simp [matchDA] at h
  | a :: b :: q :: c :: rest =>
    simp only [matchDA] at h
    split at h
    · split at h
      · rename_i d rest2 heq
        split at h
        · cases h
          have h1 : (dropGroups (List.dropWhile Char.isDigit rest)).length ≤ rest.length :=
            le_trans (dropGroups_length_le _) (length_dropWhile_isDigit_le _)
          rw [heq] at h1
          simp at h1
          simp; omega
        · cases h
      · cases h
    · cases h

theorem matchBareBody_length {l r : List Char} (h : matchBareBody l = some r) :
    r.length < l.length := by
  match l with
  | [] => simp [matchBareBody] at h
  | c :: rest =>
    simp only [matchBareBody] at h
    split at h
    · split at h
      · cases h
      · rename_i d rest2 heq
        have h1 : (dropGroups (List.dropWhile Char.isDigit rest)).length ≤ rest.length :=
          le_trans (dropGroups_length_le _) (length_dropWhile_isDigit_le _)
        rw [heq] at h1
        simp at h1
        split at h
        · split at h
          · cases h; simp
          · split at h
            · cases h; simp at h1 ⊢; omega
            · cases h
        · cases h
    · cases h

theorem findOscEnd_length {l r : List Char} (h : findOscEnd l = some r) :
    r.length < l.length := by
  induction l with
  | nil => simp [findOscEnd] at h
  | cons c rest ih =>
    simp only [findOscEnd] at h
    split at h
    · cases h; simp
    · split at h
      · cases h
        have : rest.tail.length ≤ rest.length := by
          cases rest <;> simp
        simp; omega
      · have := ih h; simp; omega

theorem stripDAF_fuel : ∀ (f1 f2 : Nat) (l : List Char), l.length ≤ f1 → l.length ≤ f2 →
    stripDAF f1 l = stripDAF f2 l := by
  intro f1
  induction f1 with
  | zero =>
    intro f2 l h1 h2
    cases l with
    | nil => cases f2 <;> rfl
    | cons c rest => simp at h1
  | succ f ih =>
    intro f2 l h1 h2
    cases l with
    | nil => cases f2 <;> rfl
    | cons c rest =>
      cases f2 with
      | zero => simp at h2
      | succ f2b =>
        simp at h1 h2
        cases hm : matchDA (c :: rest) with
        | some rest2 =>
          have hlen := matchDA_length hm
          simp at hlen
          simp only [stripDAF, hm]
          exact ih f2b rest2 (by omega) (by omega)
        | none =>
          simp only [stripDAF, hm]
          rw [ih f2b rest (by omega) (by omega)]

theorem stripBareAuxF_fuel : ∀ (f1 f2 : Nat) (l : List Char), l.length ≤ f1 → l.length ≤ f2 →
    stripBareAuxF f1 l = stripBareAuxF f2 l := by
  intro f1
  induction f1 with
  | zero =>
    intro f2 l h1 h2
    cases l with
    | nil => cases f2 <;> rfl
    | cons c rest => simp at h1
  | succ f ih =>
    intro f2 l h1 h2
    cases l with
    | nil => cases f2 <;> rfl
    | cons c rest =>
      cases f2 with
      | zero => simp at h2
      | succ f2b =>
        simp at h1 h2
        cases hm : matchBareBody rest with
        | some rest2 =>
          have hlen := matchBareBody_length hm
          simp only [stripBareAuxF, hm]
          rw [ih f2b rest2 (by omega) (by omega), ih f2b rest (by omega) (by omega)]
        | none =>
          simp only [stripBareAuxF, hm]
          rw [ih f2b rest (by omega) (by omega)]

theorem stripOSCF_fuel : ∀ (f1 f2 : Nat) (l : List Char), l.length ≤ f1 → l.length ≤ f2 →
    stripOSCF f1 l = stripOSCF f2 l := by
  intro f1
  induction f1 with
  | zero =>
    intro f2 l h1 h2
    cases l with
    | nil => cases f2 <;> rfl
    | cons c rest => simp at h1
  | succ f ih =>
    intro f2 l h1 h2
    cases l with
    | nil => cases f2 <;> rfl
    | cons c rest =>
      cases f2 with
      | zero => simp at h2
      | succ f2b =>
        simp at h1 h2
        have htl : rest.tail.length ≤ rest.length := by cases rest <;> simp
        cases hm : findOscEnd rest.tail with
        | some rest2 =>
          have hlen := findOscEnd_length hm
          simp only [stripOSCF, hm]
          rw [ih f2b rest2 (by omega) (by omega), ih f2b rest (by omega) (by omega)]
        | none =>
          simp only [stripOSCF, hm]
          rw [ih f2b rest (by omega) (by omega)]

theorem stripDAF_id : ∀ (f : Nat) (l : List Char), l.length ≤ f → hasDA l = false →
    stripDAF f l = l := by
  intro f
  induction f with
  | zero =>
    intro l h1 _
    cases l with
    | nil => rfl
    | cons c rest => simp at h1
  | succ f ih =>
    intro l h1 hda
    cases l with
    | nil => rfl
    | cons c rest =>
      simp only [hasDA, Bool.or_eq_false_iff] at hda
      have hm : matchDA (c :: rest) = none := by
        cases hmm : matchDA (c :: rest) with
        | none => rfl
        | some r => rw [hmm] at hda; simp at hda
      simp only [stripDAF, hm]
      simp at h1
      rw [ih rest (by omega) hda.2]

theorem stripDA_id (l : List Char) (h : hasDA l = false) : stripDA l = l :=
  stripDAF_id l.length l le_rfl h

theorem stripBareAuxF_id : ∀ (f : Nat) (l : List Char), l.length ≤ f → hasBareAux l = false →
    stripBareAuxF f l = l := by
  intro f
  induction f with
  | zero =>
    intro l h1 _
    cases l with
    | nil => rfl
    | cons c rest => simp at h1
  | succ f ih =>
    intro l h1 hb
    cases l with
    | nil => rfl
    | cons c rest =>
      simp only [hasBareAux, Bool.or_eq_false_iff, Bool.and_eq_false_iff] at hb
      simp at h1
      by_cases hsp : (isJsSpace c || c == '>') = true
      · have hm : matchBareBody rest = none := by
          rcases hb.1 with h | h
          · exact absurd hsp (by simp [h.1, h.2])
          · cases hmm : matchBareBody rest with
            | none => rfl
            | some r => rw [hmm] at h; simp at h
        simp only [stripBareAuxF, hm, if_pos hsp]
        rw [ih rest (by omega) hb.2]
      · simp only [stripBareAuxF, if_neg hsp]
        rw [ih rest (by omega) hb.2]

theorem stripBare_id (l : List Char) (h : hasBare l = false) : stripBare l = l := by
  simp only [hasBare, Bool.or_eq_false_iff] at h
  have hm : matchBareBody l = none := by
    cases hmm : matchBareBody l with
    | none => rfl
    | some r => rw [hmm] at h; simp at h
  simp only [stripBare, hm]
  exact stripBareAuxF_id l.length l le_rfl h.2

theorem stripOSCF_id : ∀ (f : Nat) (l : List Char), l.length ≤ f → hasOscStart l = false →
    stripOSCF f l = l := by
  intro f
  induction f with
  | zero =>
    intro l h1 _
    cases l with
    | nil => rfl
    | cons c rest => simp at h1
  | succ f ih =>
    intro l h1 ho
    cases l with
    | nil => rfl
    | cons c rest =>
      simp only [hasOscStart, Bool.or_eq_false_iff] at ho
      simp at h1
      simp only [stripOSCF, ho.1, Bool.false_eq_true, if_false]
      rw [ih rest (by omega) ho.2]

theorem stripOSC_id (l : List Char) (h : hasOscStart l = false) : stripOSC l = l :=
  stripOSCF_id l.length l le_rfl h

theorem splitLastOsc_eq_none (l : List Char) (h : hasOscStart l = false) :
    splitLastOsc l = none := by
  induction l with
  | nil => rfl
  | cons c rest ih =>
    simp only [hasOscStart, Bool.or_eq_false_iff] at h
    simp only [splitLastOsc, ih h.2, h.1, Bool.false_eq_true, if_false]

theorem splitLastOsc_shape {l pre tail : List Char}
    (h : splitLastOsc l = some (pre, tail)) :
    isOscStartAt tail = true ∧ l = pre ++ tail := by
  induction l generalizing pre with
  | nil => simp [splitLastOsc] at h
  | cons c rest ih =>
    simp only [splitLastOsc] at h
    cases hs : splitLastOsc rest with
    | some pt =>
      obtain ⟨p, t⟩ := pt
      rw [hs] at h
      cases h
      have hih := ih hs
      exact ⟨hih.1, by simp [hih.2]⟩
    | none =>
      rw [hs] at h
      by_cases hosc : isOscStartAt (c :: rest) = true
      · rw [if_pos hosc] at h
        cases h
        exact ⟨hosc, rfl⟩
      · rw [if_neg hosc] at h
        cases h

theorem isOscStartAt_shape {l : List Char} (h : isOscStartAt l = true) :
    ∃ r2, l = '\x1b' :: ']' :: r2 := by
  match l with
  | [] => simp [isOscStartAt] at h
  | [a] => simp [isOscStartAt] at h
  | a :: b :: r =>
    simp only [isOscStartAt, Bool.and_eq_true, beq_iff_eq] at h
    exact ⟨r, by rw [h.1, h.2]⟩

theorem hasTerm_false_no_bel {l : List Char} (h : hasTerm l = false) : '\x07' ∉ l := by
  induction l with
  | nil => simp
  | cons c rest ih =>
    simp only [hasTerm, Bool.or_eq_false_iff] at h
    have hc : c ≠ '\x07' := by
      intro hc
      subst hc
      simp [isTermAt] at h
    simp only [List.mem_cons]
    rintro (hh | hh)
    · exact hc hh.symm
    · exact ih h.2 hh

theorem hasTerm_false_no_pair {l : List Char} (h : hasTerm l = false) :
    ∀ l1 l2, l ≠ l1 ++ '\x1b' :: '\\' :: l2 := by
  intro l1
  induction l1 generalizing l with
  | nil =>
    intro l2 heq
    subst heq
    simp [hasTerm, isTermAt] at h
  | cons a t ih =>
    intro l2 heq
    subst heq
    simp only [List.cons_append, hasTerm, Bool.or_eq_false_iff] at h
    exact ih h.2 l2 rfl

/-- Claim C3: starting from an empty pending buffer, sanitizing the chunk
ESC bracket zero semicolon title returns the empty string and moves the
whole unterminated OSC sequence into the pending buffer; a subsequent call
with a BEL followed by the text rest returns exactly that text, the
reassembled terminated OSC sequence being stripped completely, so no
artifact text is ever returned across the two calls. -/
theorem c3_split_osc_reassembly :
    sanitizeEchoArtifacts [] ("\x1b]0;title".toList) =
      { out := [], pending := "\x1b]0;title".toList }
    ∧ sanitizeEchoArtifacts ("\x1b]0;title".toList) ("\x07rest".toList) =
      { out := "rest".toList, pending := [] } := by
  constructor
  · decide
  · decide

/-- Claim C5: a string containing no complete Device Attributes response,
no anchored bare digits fragment ending in c or R, and no OSC start marker
at all (hence neither a complete OSC sequence nor an unterminated OSC
start) is returned unchanged by the sanitizer from an empty pending buffer,
with the pending buffer left empty; consequently the sanitizer is
idempotent on already-clean text. -/
theorem c5_sanitize_clean_identity (s : List Char)
    (h1 : hasDA s = false) (h2 : hasBare s = false) (h3 : hasOscStart s = false) :
    sanitizeEchoArtifacts [] s = { out := s, pending := [] }
    ∧ sanitizeEchoArtifacts [] ((sanitizeEchoArtifacts [] s).out) =
      { out := s, pending := [] } := by
  have key : sanitizeEchoArtifacts [] s = { out := s, pending := [] } := by
    simp only [sanitizeEchoArtifacts, List.nil_append]
    rw [stripDA_id s h1, stripBare_id s h2, stripOSC_id s h3, splitLastOsc_eq_none s h3]
  refine ⟨key, ?_⟩
  rw [key]
  exact key

/-- Witness for claim C5 at a concrete clean chunk. -/
theorem c5_sanitize_clean_identity_witness :
    (hasDA cleanSample = false ∧ hasBare cleanSample = false
      ∧ hasOscStart cleanSample = false)
    ∧ (sanitizeEchoArtifacts [] cleanSample = { out := cleanSample, pending := [] }
        ∧ sanitizeEchoArtifacts [] ((sanitizeEchoArtifacts [] cleanSample).out) =
          { out := cleanSample, pending := [] }) :=
  ⟨⟨by decide, by decide, by decide⟩,
    c5_sanitize_clean_identity cleanSample (by decide) (by decide) (by decide)⟩

/-- Claim C6: with an empty pending buffer, a complete Device Attributes
response is removed entirely, and in a prompt line the bare echoed fragment
one semicolon two c is removed together with its trailing position while
the single preceding space is kept by the capture group, leaving two
consecutive spaces. -/
theorem c6_device_attribute_strip :
    sanitizeEchoArtifacts [] ("\x1b[?1;2c".toList) = { out := [], pending := [] }
    ∧ sanitizeEchoArtifacts [] ("prompt> 1;2c next".toList) =
      { out := "prompt>  next".toList, pending := [] } := by
  constructor
  · decide
  · decide

/-- Claim C10: after initialization and after every sanitizer call the
pending buffer is either empty or begins with the OSC start marker and
contains neither a BEL character nor the escape-backslash terminator, so
it only ever holds a single unterminated OSC prefix. -/
theorem c10_pending_buffer_invariant :
    pendingInv [] ∧ ∀ (p c : List Char), pendingInv ((sanitizeEchoArtifacts p c).pending) := by
  constructor
  · left
    rfl
  · intro p c
    simp only [sanitizeEchoArtifacts]
    cases hs : splitLastOsc (stripOSC (stripBare (stripDA (p ++ c)))) with
    | none =>
      left
      rfl
    | some pt =>
      obtain ⟨pre, tail⟩ := pt
      by_cases ht : hasTerm tail = true
      · left
        simp [ht]
      · right
        have ht2 : hasTerm tail = false := by
          cases hh : hasTerm tail
          · rfl
          · exact absurd hh ht
        have hshape := splitLastOsc_shape hs
        obtain ⟨r2, hr2⟩ := isOscStartAt_shape hshape.1
        constructor
        · simp only [ht2, Bool.false_eq_true, if_false]
          rw [hr2]
          rfl
        constructor
        · simp only [ht2, Bool.false_eq_true, if_false]
          exact hasTerm_false_no_bel ht2
        · simp only [ht2, Bool.false_eq_true, if_false]
          exact hasTerm_false_no_pair ht2

theorem handleIncoming_fields (id : String) (st : TermState) (data : List Char) (b : Bool) :
    (handleIncoming id st data b).pendingOsc = (sanitizeEchoArtifacts st.pendingOsc data).pending
    ∧ (handleIncoming id st data b).historyReceived = st.historyReceived
    ∧ (handleIncoming id st data b).historyReplayedViaFallback = st.historyReplayedViaFallback
    ∧ (handleIncoming id st data b).timerCleared = st.timerCleared := by
  simp only [handleIncoming]
  repeat' split
  all_goals simp

/-- Claim C1: after the fallback replay has occurred for a session, every
incoming history chunk is first sanitized; when the non-empty cached
snapshot text is a prefix of the sanitized text only the suffix beyond it
is forwarded to the sink and appended to the snapshot, nothing happening on
an empty suffix; otherwise the full sanitized text is forwarded and
appended. -/
theorem c1_fallback_history_dedup (id : String) (st : TermState) (data : List Char)
    (hrep : st.historyReplayedViaFallback = true) : c1Spec id st data := by
  simp only [c1Spec]
  refine ⟨(handleIncoming_fields id st data true).1, ?_, ?_, ?_⟩
  · intro hout
    simp [handleIncoming, hout]
  · intro hne hcne hpre
    constructor
    · intro hd
      simp [handleIncoming, hne, hrep, hcne, hpre, hd]
    · intro hd
      simp [handleIncoming, hne, hrep, hcne, hpre, hd]
  · intro hne hcase
    rcases hcase with hc | hc
    · simp [handleIncoming, hne, hrep, hc]
    · simp [handleIncoming, hne, hrep, hc]

/-- Witness for claim C1: with cached text ABC already fallback-replayed, a
history chunk sanitizing to ABCDEF forwards and appends only DEF, and one
sanitizing to XYZ forwards the full XYZ. -/
theorem c1_fallback_history_dedup_witness :
    (c1ExampleState.historyReplayedViaFallback = true
      ∧ c1Spec "s" c1ExampleState ['A', 'B', 'C', 'D', 'E', 'F'])
    ∧ (handleIncoming "s" c1ExampleState ['A', 'B', 'C', 'D', 'E', 'F'] true).writes =
        c1ExampleState.writes ++ [['D', 'E', 'F']]
    ∧ (handleIncoming "s" c1ExampleState ['X', 'Y', 'Z'] true).writes =
        c1ExampleState.writes ++ [['X', 'Y', 'Z']] :=
  ⟨⟨by decide, c1_fallback_history_dedup "s" c1ExampleState ['A', 'B', 'C', 'D', 'E', 'F']
      (by decide)⟩,
    by decide, by decide⟩

theorem evict_cap : ∀ (chunks : List SnapshotChunk) (bytes : Nat),
    2 ≤ (evict chunks bytes).1.length → (evict chunks bytes).2 ≤ SNAPSHOT_LIMIT_BYTES := by
  intro chunks
  induction chunks with
  | nil => intro bytes h; simp [evict] at h
  | cons c tail ih =>
    intro bytes h
    cases tail with
    | nil => simp [evict] at h
    | cons c2 rest =>
      by_cases hb : SNAPSHOT_LIMIT_BYTES < bytes
      · simp only [evict, if_pos hb] at h ⊢
        exact ih (bytes - c.bytes) h
      · simp only [evict, if_neg hb] at h ⊢
        omega

theorem evict_drop : ∀ (chunks : List SnapshotChunk) (bytes : Nat),
    ∃ k, (chunks ≠ [] → k < chunks.length) ∧ (evict chunks bytes).1 = chunks.drop k := by
  intro chunks
  induction chunks with
  | nil => intro bytes; exact ⟨0, by simp, by simp [evict]⟩
  | cons c tail ih =>
    intro bytes
    cases tail with
    | nil => exact ⟨0, by simp, by simp [evict]⟩
    | cons c2 rest =>
      by_cases hb : SNAPSHOT_LIMIT_BYTES < bytes
      · obtain ⟨k, hk1, hk2⟩ := ih (bytes - c.bytes)
        refine ⟨k + 1, ?_, ?_⟩
        · intro _
          have := hk1 (by simp)
          simp at this ⊢
          omega
        · simp only [evict, if_pos hb]
          rw [hk2]
          rfl
      · exact ⟨0, by simp, by simp [evict, if_neg hb]⟩

theorem appendSnapshotChunk_cap (m : SnapMap)
    (hm : ∀ id2 e, m id2 = some e → 2 ≤ e.chunks.length → e.bytes ≤ SNAPSHOT_LIMIT_BYTES)
    (id : String) (t : List Char) :
    ∀ id2 e, appendSnapshotChunk m id t id2 = some e →
      2 ≤ e.chunks.length → e.bytes ≤ SNAPSHOT_LIMIT_BYTES := by
  intro id2 e h hlen
  simp only [appendSnapshotChunk] at h
  split at h
  · exact hm id2 e h hlen
  · split at h
    · exact hm id2 e h hlen
    · beta_reduce at h
      by_cases hid : id2 = id
      · rw [if_pos hid] at h
        cases h
        exact evict_cap _ _ hlen
      · rw [if_neg hid] at h
        exact hm id2 e h hlen

theorem applyOps_cap (ops : List (String × List Char)) :
    ∀ id e, applyOps ops id = some e →
      2 ≤ e.chunks.length → e.bytes ≤ SNAPSHOT_LIMIT_BYTES := by
  have key : ∀ (l : List (String × List Char)) (m : SnapMap),
      (∀ id2 e, m id2 = some e → 2 ≤ e.chunks.length → e.bytes ≤ SNAPSHOT_LIMIT_BYTES) →
      ∀ id e, (l.foldl (fun m2 p => appendSnapshotChunk m2 p.1 p.2) m) id = some e →
        2 ≤ e.chunks.length → e.bytes ≤ SNAPSHOT_LIMIT_BYTES := by
    intro l
    induction l with
    | nil => intro m hm; exact hm
    | cons p rest ih =>
      intro m hm
      exact ih (appendSnapshotChunk m p.1 p.2) (appendSnapshotChunk_cap m hm p.1 p.2)
  exact key ops emptySnapshots (by intro id2 e h; simp [emptySnapshots] at h)

/-- Claim C2: after any finite sequence of appends, every session entry
with at least two fragments has a running byte total of at most 512 KiB;
and a single append always stores the new fragment whole at the newest end
while evicting only some prefix of the previously stored fragments, so a
sole fragment is retained even when its encoded size exceeds the cap. -/
theorem c2_snapshot_cap_invariant (ops : List (String × List Char)) (id : String)
    (t : List Char) (hne : t ≠ []) (hcb : encodeBytes t ≠ 0) :
    (∀ e, applyOps ops id = some e → 2 ≤ e.chunks.length → e.bytes ≤ SNAPSHOT_LIMIT_BYTES)
    ∧ (∀ m : SnapMap, c2StepSpec m id t) := by
  constructor
  · intro e h
    exact applyOps_cap ops id e h
  · intro m
    simp only [c2StepSpec]
    set old := (m id).getD { chunks := [], bytes := 0 } with hold
    set nc : SnapshotChunk := { text := t, bytes := encodeBytes t } with hnc
    set res := evict (old.chunks ++ [nc]) (old.bytes + encodeBytes t) with hres
    obtain ⟨k, hk1, hk2⟩ := evict_drop (old.chunks ++ [nc]) (old.bytes + encodeBytes t)
    have hkk := hk1 (by simp)
    simp at hkk
    refine ⟨{ chunks := res.1, bytes := res.2 }, ?_, k, by omega, ?_⟩
    · simp only [appendSnapshotChunk, if_neg hne, if_neg hcb]
      simp only [if_true, hres, hold, hnc]
    · simp only
      rw [← hres] at hk2
      rw [hk2, List.drop_append_eq_append_drop,
        Nat.sub_eq_zero_of_le (by omega), List.drop_zero]

theorem stepEvent_preserves (id : String) (st : TermState) (e : PtyEvent)
    (hrec : st.historyReceived = true) (hrep : st.historyReplayedViaFallback = false) :
    (stepEvent id st e).historyReceived = true
    ∧ (stepEvent id st e).historyReplayedViaFallback = false := by
  cases e with
  | history d =>
    simp only [stepEvent]
    have h := handleIncoming_fields id { st with historyReceived := true } d true
    exact ⟨by rw [h.2.1], by rw [h.2.2.1]; exact hrep⟩
  | live d =>
    simp only [stepEvent]
    have h := handleIncoming_fields id st d false
    exact ⟨by rw [h.2.1]; exact hrec, by rw [h.2.2.1]; exact hrep⟩
  | timerFire =>
    simp only [stepEvent]
    split
    · exact ⟨hrec, hrep⟩
    · simp only [fireFallback, if_pos hrec]
      exact ⟨hrec, hrep⟩

theorem runEvents_preserves (id : String) : ∀ (evs : List PtyEvent) (st : TermState),
    st.historyReceived = true → st.historyReplayedViaFallback = false →
    (runEvents id st evs).historyReceived = true
    ∧ (runEvents id st evs).historyReplayedViaFallback = false := by
  intro evs
  induction evs with
  | nil => intro st h1 h2; exact ⟨h1, h2⟩
  | cons e rest ih =>
    intro st h1 h2
    have hs := stepEvent_preserves id st e h1 h2
    exact ih (stepEvent id st e) hs.1 hs.2

/-- Claim C4, amended: the arrival of a history chunk does not clear the
fallback timer (the source clears it only in the teardown disposal list);
instead the timer body is guarded by the history-received flag, so once any
history chunk has been observed the timer body is a no-op, the session
never transitions to the fallback-replayed state under any further events,
and the timer never writes cached text to the sink. -/
theorem c4_history_disables_fallback (id : String) (st : TermState) (evs : List PtyEvent)
    (d : List Char) (hrec : st.historyReceived = true)
    (hrep : st.historyReplayedViaFallback = false) :
    fireFallback id st = st
    ∧ stepEvent id st PtyEvent.timerFire = st
    ∧ (runEvents id st evs).historyReceived = true
    ∧ (runEvents id st evs).historyReplayedViaFallback = false
    ∧ (stepEvent id st (PtyEvent.history d)).timerCleared = st.timerCleared
    ∧ (∀ k, (teardownSession k id st).timerCleared = true) := by
  have hff : fireFallback id st = st := by
    simp only [fireFallback, if_pos hrec]
  refine ⟨hff, ?_, (runEvents_preserves id evs st hrec hrep).1,
    (runEvents_preserves id evs st hrec hrep).2, ?_, ?_⟩
  · simp only [stepEvent]
    split
    · rfl
    · exact hff
  · have h := handleIncoming_fields id { st with historyReceived := true } d true
    simp only [stepEvent]
    rw [h.2.2.2]
  · intro k
    rfl

/-- Witness for the amended claim C4, at a session that has just received
its first history chunk before the timer fired. -/
theorem c4_history_disables_fallback_witness :
    (c4ExampleState.historyReceived = true
      ∧ c4ExampleState.historyReplayedViaFallback = false)
    ∧ (fireFallback "s" c4ExampleState = c4ExampleState
      ∧ stepEvent "s" c4ExampleState PtyEvent.timerFire = c4ExampleState
      ∧ (runEvents "s" c4ExampleState [PtyEvent.timerFire]).historyReceived = true
      ∧ (runEvents "s" c4ExampleState [PtyEvent.timerFire]).historyReplayedViaFallback = false
      ∧ (stepEvent "s" c4ExampleState (PtyEvent.history ['x'])).timerCleared =
          c4ExampleState.timerCleared
      ∧ (∀ k, (teardownSession k "s" c4ExampleState).timerCleared = true)) :=
  ⟨⟨by decide, by decide⟩,
    c4_history_disables_fallback "s" c4ExampleState [PtyEvent.timerFire] ['x']
      (by decide) (by decide)⟩

/-- Counterexample to claim C4 as stated: when the first history chunk
arrives before the fallback timer fires, the timer is not cancelled at that
instant — the cancellation flag is still unset afterwards, and only session
teardown sets it.  The observable consequence claimed (no fallback replay
after history) does hold and is the amended theorem. -/
theorem c4_timer_not_cancelled_counterexample :
    (stepEvent "s" (initialTermState emptySnapshots) (PtyEvent.history ['h'])).historyReceived
      = true
    ∧ (stepEvent "s" (initialTermState emptySnapshots) (PtyEvent.history ['h'])).timerCleared
      = false
    ∧ (teardownSession false "s"
        (stepEvent "s" (initialTermState emptySnapshots) (PtyEvent.history ['h']))).timerCleared
      = true := by
  exact ⟨by decide, by decide, by decide⟩

/-- Claim C7: the start-error callback is invoked on PTY exit exactly when
the elapsed time since session start is under 1500 milliseconds and a
callback was provided, with a message reporting the exit code; an exit
1200 milliseconds after start triggers it, one 2000 milliseconds after
start does not. -/
theorem c7_early_exit_detection (startTs now : Int) (cb : Bool) (code : Option Int) :
    ((onPtyExitEarlyError startTs now cb code).isSome ↔ (now - startTs < 1500 ∧ cb = true))
    ∧ (now - startTs = 1200 → cb = true →
        onPtyExitEarlyError startTs now cb code = some (ptyExitMessage code))
    ∧ (now - startTs = 2000 → onPtyExitEarlyError startTs now cb code = none) := by
  refine ⟨?_, ?_, ?_⟩
  · simp only [onPtyExitEarlyError]
    split
    · rename_i h
      simp only [Option.isSome_some, true_iff]
      exact h
    · rename_i h
      simp only [Option.isSome_none, Bool.false_eq_true, false_iff]
      exact h
  · intro h1 h2
    simp only [onPtyExitEarlyError]
    rw [if_pos ⟨by omega, h2⟩]
  · intro h1
    simp only [onPtyExitEarlyError]
    rw [if_neg]
    rintro ⟨hlt, _⟩
    omega

/-- Witness for claim C7 at concrete exit times of 1200 and 2000
milliseconds after a start at time zero. -/
theorem c7_early_exit_detection_witness :
    onPtyExitEarlyError 0 1200 true (some 17) = some (ptyExitMessage (some 17))
    ∧ onPtyExitEarlyError 0 2000 true (some 17) = none :=
  ⟨(c7_early_exit_detection 0 1200 true (some 17)).2.1 (by decide) rfl,
    (c7_early_exit_detection 0 2000 true (some 17)).2.2 (by decide)⟩

theorem regGet_regSet_self {H : Type} (r : FocusRegistry H) (id : String) (h : H) :
    regGet (regSet r id h) id = some h := by
  induction r with
  | nil => simp [regSet, regGet]
  | cons kv rest ih =>
    obtain ⟨k, v⟩ := kv
    by_cases hk : k = id
    · simp [regSet, regGet, hk]
    · simp [regSet, regGet, hk, ih]

theorem regGet_none_of_not_mem {H : Type} (r : FocusRegistry H) (id : String)
    (h : id ∉ r.map Prod.fst) : regGet r id = none := by
  induction r with
  | nil => rfl
  | cons kv rest ih =>
    obtain ⟨k, v⟩ := kv
    simp only [List.map_cons, List.mem_cons] at h
    push_neg at h
    have hk : ¬ k = id := fun hh => h.1 hh.symm
    simp only [regGet, if_neg hk]
    exact ih h.2

theorem regGet_regDelete_self {H : Type} (r : FocusRegistry H) (id : String)
    (hnd : regNodupKeys r) : regGet (regDelete r id) id = none := by
  induction r with
  | nil => rfl
  | cons kv rest ih =>
    obtain ⟨k, v⟩ := kv
    simp only [regNodupKeys, List.map_cons, List.nodup_cons] at hnd
    by_cases hk : k = id
    · simp only [regDelete, if_pos hk]
      exact regGet_none_of_not_mem rest id (by rw [← hk]; exact hnd.1)
    · simp only [regDelete, if_neg hk, regGet, if_neg hk]
      exact ih hnd.2

theorem regSet_mem_keys {H : Type} (r : FocusRegistry H) (id : String) (h : H) (a : String) :
    a ∈ (regSet r id h).map Prod.fst ↔ a ∈ r.map Prod.fst ∨ a = id := by
  induction r with
  | nil => simp [regSet]
  | cons kv rest ih =>
    obtain ⟨k, v⟩ := kv
    by_cases hk : k = id
    · subst hk
      simp only [regSet, if_pos rfl]
      constructor
      · intro hm
        simp at hm ⊢
        tauto
      · intro hm
        simp at hm ⊢
        tauto
    · simp only [regSet, if_neg hk, List.map_cons, List.mem_cons, ih]
      tauto

theorem regSet_nodup {H : Type} (r : FocusRegistry H) (id : String) (h : H)
    (hnd : regNodupKeys r) : regNodupKeys (regSet r id h) := by
  induction r with
  | nil => simp [regSet, regNodupKeys]
  | cons kv rest ih =>
    obtain ⟨k, v⟩ := kv
    simp only [regNodupKeys, List.map_cons, List.nodup_cons] at hnd
    by_cases hk : k = id
    · simp only [regNodupKeys, regSet, if_pos hk, List.map_cons, List.nodup_cons]
      exact hnd
    · simp only [regNodupKeys, regSet, if_neg hk, List.map_cons, List.nodup_cons]
      constructor
      · rw [regSet_mem_keys]
        rintro (hm | hm)
        · exact hnd.1 hm
        · exact hk hm
      · exact ih hnd.2

/-- Claim C8: registration overwrites any existing handler for the same
identifier, unregistration without a handler removes the entry
unconditionally, unregistration with a handler removes the entry only when
it is the currently registered one; in particular after registering
handler a and then handler b for an identifier, unregistering a leaves b
registered and subsequently unregistering b removes the entry. -/
theorem c8_focus_registry_semantics {H : Type} [DecidableEq H] (r : FocusRegistry H)
    (id : String) (a b : H) (hid : id ≠ "") (hnd : regNodupKeys r) (hab : a ≠ b) :
    regGet (registerTerminalFocus r id b) id = some b
    ∧ regGet (unregisterTerminalFocus r id none) id = none
    ∧ (∀ cur hh, regGet r id = some cur →
        regGet (unregisterTerminalFocus r id (some hh)) id =
          (if cur = hh then none else some cur))
    ∧ regGet (unregisterTerminalFocus
        (registerTerminalFocus (registerTerminalFocus r id a) id b) id (some a)) id = some b
    ∧ regGet (unregisterTerminalFocus (unregisterTerminalFocus
        (registerTerminalFocus (registerTerminalFocus r id a) id b) id (some a))
        id (some b)) id = none := by
  have hreg2 : regGet (registerTerminalFocus (registerTerminalFocus r id a) id b) id
      = some b := by
    simp only [registerTerminalFocus, if_neg hid]
    exact regGet_regSet_self _ id b
  have hnd2 : regNodupKeys (registerTerminalFocus (registerTerminalFocus r id a) id b) := by
    simp only [registerTerminalFocus, if_neg hid]
    exact regSet_nodup _ id b (regSet_nodup r id a hnd)
  have huns : unregisterTerminalFocus
      (registerTerminalFocus (registerTerminalFocus r id a) id b) id (some a)
      = registerTerminalFocus (registerTerminalFocus r id a) id b := by
    simp only [unregisterTerminalFocus, if_neg hid]
    rw [hreg2, if_neg (by simp; exact fun hh => hab hh.symm)]
  refine ⟨?_, ?_, ?_, ?_, ?_⟩
  · simp only [registerTerminalFocus, if_neg hid]
    exact regGet_regSet_self r id b
  · simp only [unregisterTerminalFocus, if_neg hid]
    exact regGet_regDelete_self r id hnd
  · intro cur hh hcur
    simp only [unregisterTerminalFocus, if_neg hid]
    by_cases hch : cur = hh
    · rw [if_pos (by rw [hcur, hch]), if_pos hch]
      exact regGet_regDelete_self r id hnd
    · rw [if_neg (by rw [hcur]; simp; exact fun he => hch he), if_neg hch]
      exact hcur
  · rw [huns]
    exact hreg2
  · rw [huns]
    simp only [unregisterTerminalFocus, if_neg hid]
    rw [hreg2, if_pos rfl]
    exact regGet_regDelete_self _ id hnd2

/-- Witness for claim C8 on a concrete registry of numbered handlers. -/
theorem c8_focus_registry_semantics_witness :
    ("s" ≠ "" ∧ regNodupKeys [("x", (0 : Nat))] ∧ (1 : Nat) ≠ 2)
    ∧ (regGet (registerTerminalFocus [("x", (0 : Nat))] "s" 2) "s" = some 2
      ∧ regGet (unregisterTerminalFocus [("x", (0 : Nat))] "s" none) "s" = none
      ∧ (∀ cur hh, regGet [("x", (0 : Nat))] "s" = some cur →
          regGet (unregisterTerminalFocus [("x", (0 : Nat))] "s" (some hh)) "s" =
            (if cur = hh then none else some cur))
      ∧ regGet (unregisterTerminalFocus
          (registerTerminalFocus (registerTerminalFocus [("x", (0 : Nat))] "s" 1) "s" 2)
          "s" (some 1)) "s" = some 2
      ∧ regGet (unregisterTerminalFocus (unregisterTerminalFocus
          (registerTerminalFocus (registerTerminalFocus [("x", (0 : Nat))] "s" 1) "s" 2)
          "s" (some 1)) "s" (some 2)) "s" = none) :=
  ⟨⟨by decide, by show (List.map Prod.fst [("x", (0 : Nat))]).Nodup; decide, by decide⟩,
    c8_focus_registry_semantics [("x", (0 : Nat))] "s" 1 2 (by decide)
      (by show (List.map Prod.fst [("x", (0 : Nat))]).Nodup; decide) (by decide)⟩

/-- Claim C9: the registry scan visits entries in registration order; when
no entry satisfies the predicate (a predicate exception counting as not
satisfying) the scan returns false and invokes nothing; the first
satisfying entry has its handler invoked, a successful invocation stopping
the scan with a true result and an invocation exception being swallowed
and the scan continuing with the remaining entries — no exception from the
predicate or a handler ever propagates to the caller. -/
theorem c9_focus_matching_scan {H : Type} (beh : H → Except Unit Unit)
    (pred : String → H → Except Unit Bool) :
    (∀ r : FocusRegistry H, (∀ p ∈ r, pred p.1 p.2 ≠ Except.ok true) →
      focusTerminalMatching beh pred r = (false, []))
    ∧ (∀ (r1 r2 : FocusRegistry H) (id : String) (h : H),
        (∀ p ∈ r1, pred p.1 p.2 ≠ Except.ok true) → pred id h = Except.ok true →
        (beh h = Except.ok () →
          focusTerminalMatching beh pred (r1 ++ (id, h) :: r2) = (true, [(id, h)]))
        ∧ (beh h = Except.error () →
          focusTerminalMatching beh pred (r1 ++ (id, h) :: r2) =
            ((focusTerminalMatching beh pred r2).1,
              (id, h) :: (focusTerminalMatching beh pred r2).2))) := by
  have skip : ∀ (p : String × H) (rest : FocusRegistry H), pred p.1 p.2 ≠ Except.ok true →
      focusTerminalMatching beh pred (p :: rest) = focusTerminalMatching beh pred rest := by
    intro p rest hp
    obtain ⟨pid, ph⟩ := p
    cases hpp : pred pid ph with
    | error e => simp [focusTerminalMatching, hpp]
    | ok bb =>
      cases bb with
      | true => exact absurd hpp hp
      | false => simp [focusTerminalMatching, hpp]
  constructor
  · intro r
    induction r with
    | nil => intro _; rfl
    | cons p rest ih =>
      intro hall
      rw [skip p rest (hall p (by simp))]
      exact ih (fun q hq => hall q (by simp [hq]))
  · intro r1 r2 id h hall hp
    induction r1 with
    | nil =>
      constructor
      · intro hb
        simp [focusTerminalMatching, hp, hb]
      · intro hb
        simp [focusTerminalMatching, hp, hb]
    | cons p t ih =>
      have hskip := skip p (t ++ (id, h) :: r2) (hall p (by simp))
      have iht := ih (fun q hq => hall q (by simp [hq]))
      constructor
      · intro hb
        rw [List.cons_append, hskip]
        exact iht.1 hb
      · intro hb
        rw [List.cons_append, hskip]
        exact iht.2 hb

/-- Witness for claim C9 on a concrete two-entry registry: the first entry
does not satisfy the predicate, the second does and its handler succeeds,
so the scan stops there with a true result and exactly one invocation. -/
theorem c9_focus_matching_scan_witness :
    ((∀ p ∈ ([("a", (0 : Nat))] : FocusRegistry Nat), samplePred p.1 p.2 ≠ Except.ok true)
      ∧ samplePred "b" 1 = Except.ok true ∧ sampleBeh 1 = Except.ok ())
    ∧ focusTerminalMatching sampleBeh samplePred ([("a", (0 : Nat))] ++ ("b", 1) :: [])
        = (true, [("b", 1)]) :=
  ⟨⟨by intro p hp; simp only [List.mem_singleton] at hp; subst hp; simp [samplePred],
      rfl, rfl⟩,
    ((c9_focus_matching_scan sampleBeh samplePred).2 [("a", 0)] [] "b" 1
      (by intro p hp; simp only [List.mem_singleton] at hp; subst hp; simp [samplePred])
      rfl).1 rfl⟩

/-- Witness for claim C2 at a concrete two-append session followed by a
further append step. -/
theorem c2_snapshot_cap_invariant_witness :
    (['c'] ≠ ([] : List Char) ∧ encodeBytes ['c'] ≠ 0)
    ∧ ((∀ e, applyOps [("s", ['a']), ("s", ['b'])] "s" = some e →
          2 ≤ e.chunks.length → e.bytes ≤ SNAPSHOT_LIMIT_BYTES)
        ∧ (∀ m : SnapMap, c2StepSpec m "s" ['c'])) :=
  ⟨⟨by decide, by decide⟩,
    c2_snapshot_cap_invariant [("s", ['a']), ("s", ['b'])] "s" ['c'] (by decide) (by decide)⟩
